import Mathlib

/-
Verification development for the Nairobi property scraper
(src/nairobi_property_scraper_v2.py).  The Python source is shallowly
embedded: pure helper functions become Lean functions on `List Char` /
`String`, the record dictionaries built by `row(...)` become a `Record`
structure, the pagination loops become fueled recursions over the list of
fetch outcomes, and fallible calls (json.loads, str.index) return `Except`.
-/

namespace Scraper

/-! ### Whitespace model and the text normalizer `c`

Python source, line 60-61:
  def c(v):
      return re.sub(r"\s+", " ", str(v or "").replace("\xa0", " ")).strip()
`pySpace` models the character class `\s` of Python's `re` (and the default
strip set of `str.strip`) on the code points the scraper encounters. -/

def pySpace (ch : Char) : Bool :=
  ch = ' ' || ch = '\t' || ch = '\n' || ch = '\r' || ch = '\x0b' ||
  ch = '\x0c' || ch = '\x1c' || ch = '\x1d' || ch = '\x1e' || ch = '\x1f' ||
  ch = '\x85' || ch = '\xa0'

/-- Model of `str.replace("\xa0", " ")` on the character list. -/
def replNbsp (l : List Char) : List Char :=
  l.map fun ch => if ch = '\xa0' then ' ' else ch

/-- Model of `re.sub(r"\s+", " ", ·)`: every maximal run of whitespace becomes one
space.  The boolean argument records whether the previous character was
whitespace (so the current run has already emitted its single space). -/
def collapseAux : Bool → List Char → List Char
  | _, [] => []
  | prevSp, ch :: rest =>
    if pySpace ch then
      if prevSp then collapseAux true rest
      else ' ' :: collapseAux true rest
    else ch :: collapseAux false rest

def collapseWs (l : List Char) : List Char := collapseAux false l

/-- Remove the maximal whitespace suffix (helper for `str.strip()`). -/
def dropTrailingWs : List Char → List Char
  | [] => []
  | a :: rest =>
    if (dropTrailingWs rest).isEmpty && pySpace a then []
    else a :: dropTrailingWs rest

/-- Model of `str.strip()`: drop leading and trailing whitespace. -/
def stripWs (l : List Char) : List Char :=
  dropTrailingWs (l.dropWhile pySpace)

def cList (l : List Char) : List Char := stripWs (collapseWs (replNbsp l))

/-- The normalizer `c` of the source (applied to values that are already
strings; `str(v or "")` on non-string values is handled at the call sites
that pass non-strings, see `toC`). -/
def c (s : String) : String := String.mk (cList s.data)

/-! ### The record model

FIELDS = ["source","listing_type","title","price","location","bedrooms",
"bathrooms","size_sqm","property_type","url","scraped_at"].  `row(src, lt,
**kw)` c-normalizes every data field and sets source / listing_type /
scraped_at verbatim.  `scraped_at` (datetime.now()) is an environment
input; the claims never inspect it, it is carried as an opaque string. -/

structure Record where
  source : String := ""
  listing_type : String := ""
  title : String := ""
  price : String := ""
  location : String := ""
  bedrooms : String := ""
  bathrooms : String := ""
  size_sqm : String := ""
  property_type : String := ""
  url : String := ""
  scraped_at : String := ""
  deriving DecidableEq, Repr

/-- The `row(src, lt, **kw)` builder (source line 63-66). -/
def row (src lt title price location bedrooms bathrooms size_sqm
    property_type url : String) : Record :=
  { source := src
    listing_type := lt
    title := c title
    price := c price
    location := c location
    bedrooms := c bedrooms
    bathrooms := c bathrooms
    size_sqm := c size_sqm
    property_type := c property_type
    url := c url
    scraped_at := "" }

/-! ### The final deduplicator (source lines 568-575)

  def dedup(lst):
      seen, out = set(), []
      for r in lst:
          k = r.get("url") or (r.get("title","") + r.get("price",""))
          if k and k not in seen:
              seen.add(k); out.append(r)
      return out
-/

/-- The derived dedup key: `r.get("url") or (title + price)` — the url when
it is non-empty (truthy), else the concatenation of title and price. -/
def dedupKey (r : Record) : String :=
  if r.url ≠ "" then r.url else r.title ++ r.price

def dedupGo (seen : List String) : List Record → List Record
  | [] => []
  | r :: rest =>
    if dedupKey r ≠ "" ∧ dedupKey r ∉ seen then
      r :: dedupGo (dedupKey r :: seen) rest
    else dedupGo seen rest

def dedup (lst : List Record) : List Record := dedupGo [] lst

/-- Modelled from the spec: the behaviour C2 claims for the deduplicator —
a single left-to-right pass keeping every record whose derived key has not
been seen before, with no condition on the key being non-empty.  `prev`
accumulates the keys of all records already scanned. -/
def specKeepFirst (prev : List String) : List Record → List Record
  | [] => []
  | r :: rest =>
    if dedupKey r ∉ prev then r :: specKeepFirst (dedupKey r :: prev) rest
    else specKeepFirst (dedupKey r :: prev) rest

/-- The corrected pass: keep a record iff its derived key is non-empty and
no earlier record of the input (kept or dropped) had the same key. -/
def specKeepFirstNonEmpty (prev : List String) : List Record → List Record
  | [] => []
  | r :: rest =>
    if dedupKey r ≠ "" ∧ dedupKey r ∉ prev then
      r :: specKeepFirstNonEmpty (dedupKey r :: prev) rest
    else specKeepFirstNonEmpty (dedupKey r :: prev) rest

/-! Lemmas about `dedup`. -/

theorem dedupGo_key_not_seen (seen : List String) (l : List Record) :
    ∀ r ∈ dedupGo seen l, dedupKey r ∉ seen := by
  induction l generalizing seen with
  | nil => intro r hr; simp [dedupGo] at hr
  | cons a rest ih =>
    intro r hr
    simp only [dedupGo] at hr
    by_cases hk : dedupKey a ≠ "" ∧ dedupKey a ∉ seen
    · rw [if_pos hk] at hr
      rcases List.mem_cons.mp hr with hr | hr
      · subst hr; exact hk.2
      · have := ih (dedupKey a :: seen) r hr
        intro hmem; exact this (List.mem_cons_of_mem _ hmem)
    · rw [if_neg hk] at hr
      exact ih seen r hr

theorem dedupGo_pairwise (seen : List String) (l : List Record) :
    (dedupGo seen l).Pairwise (fun a b => dedupKey a ≠ dedupKey b) := by
  induction l generalizing seen with
  | nil => simp [dedupGo]
  | cons a rest ih =>
    simp only [dedupGo]
    by_cases hk : dedupKey a ≠ "" ∧ dedupKey a ∉ seen
    · rw [if_pos hk]
      refine List.Pairwise.cons ?_ (ih (dedupKey a :: seen))
      intro b hb hab
      have := dedupGo_key_not_seen (dedupKey a :: seen) rest b hb
      exact this (by rw [← hab]; exact List.mem_cons_self _ _)
    · rw [if_neg hk]; exact ih seen

theorem dedupGo_eq_specNE (seen prev : List String) (l : List Record)
    (hsub : ∀ k, k ∈ seen → k ∈ prev)
    (hrev : ∀ k, k ≠ "" → k ∈ prev → k ∈ seen) :
    dedupGo seen l = specKeepFirstNonEmpty prev l := by
  induction l generalizing seen prev with
  | nil => simp [dedupGo, specKeepFirstNonEmpty]
  | cons a rest ih =>
    simp only [dedupGo, specKeepFirstNonEmpty]
    by_cases hk : dedupKey a ≠ "" ∧ dedupKey a ∉ prev
    · have hk' : dedupKey a ≠ "" ∧ dedupKey a ∉ seen :=
        ⟨hk.1, fun h => hk.2 (hsub _ h)⟩
      rw [if_pos hk', if_pos hk]
      congr 1
      refine ih (dedupKey a :: seen) (dedupKey a :: prev) ?_ ?_
      · intro k hkm
        rcases List.mem_cons.mp hkm with h | h
        · exact h ▸ List.mem_cons_self _ _
        · exact List.mem_cons_of_mem _ (hsub _ h)
      · intro k hne hkm
        rcases List.mem_cons.mp hkm with h | h
        · exact h ▸ List.mem_cons_self _ _
        · exact List.mem_cons_of_mem _ (hrev _ hne h)
    · have hk' : ¬ (dedupKey a ≠ "" ∧ dedupKey a ∉ seen) := by
        intro hc
        exact hk ⟨hc.1, fun h => hc.2 (hrev _ hc.1 h)⟩
      rw [if_neg hk', if_neg hk]
      refine ih seen (dedupKey a :: prev) ?_ ?_
      · intro k hkm; exact List.mem_cons_of_mem _ (hsub _ hkm)
      · intro k hne hkm
        rcases List.mem_cons.mp hkm with h | h
        · subst h
          have hmem : dedupKey a ∈ prev := by
            by_contra hnm
            exact hk ⟨hne, hnm⟩
          exact hrev _ hne hmem
        · exact hrev _ hne h

/-! ### Idempotence of the normalizer `c` (claim C5)

The output of `cList` satisfies: every whitespace character in it is a
plain space, no two adjacent whitespace characters, and no whitespace at
either end.  On such lists every stage of `cList` is the identity. -/

def headNotSpace : List Char → Bool
  | [] => true
  | a :: _ => !pySpace a

def lastNotSpace : List Char → Bool
  | [] => true
  | [a] => !pySpace a
  | _ :: b :: rest => lastNotSpace (b :: rest)

def noTwoSpaces : List Char → Bool
  | [] => true
  | [_] => true
  | a :: b :: rest => (!(pySpace a && pySpace b)) && noTwoSpaces (b :: rest)

theorem noTwoSpaces_tail (a : Char) (l : List Char)
    (h : noTwoSpaces (a :: l) = true) : noTwoSpaces l = true := by
  cases l with
  | nil => rfl
  | cons b rest =>
    simp only [noTwoSpaces, Bool.and_eq_true] at h
    exact h.2

theorem noTwoSpaces_head (a : Char) (l : List Char)
    (h : noTwoSpaces (a :: l) = true) (ha : pySpace a = true) :
    headNotSpace l = true := by
  cases l with
  | nil => rfl
  | cons b rest =>
    simp only [noTwoSpaces, Bool.and_eq_true] at h
    have h1 := h.1
    simp only [headNotSpace]
    simp only [Bool.not_eq_true', Bool.and_eq_false_iff] at h1 ⊢
    rcases h1 with h1 | h1
    · rw [ha] at h1; exact absurd h1 (by simp)
    · exact h1

theorem collapseAux_headNotSpace (l : List Char) :
    headNotSpace (collapseAux true l) = true := by
  induction l with
  | nil => rfl
  | cons a rest ih =>
    simp only [collapseAux]
    by_cases ha : pySpace a
    · rw [if_pos ha]; exact ih
    · rw [if_neg ha]
      simp only [headNotSpace]
      simp [ha]

theorem collapseAux_noTwoSpaces (l : List Char) :
    ∀ b, noTwoSpaces (collapseAux b l) = true := by
  induction l with
  | nil => intro b; rfl
  | cons a rest ih =>
    intro b
    simp only [collapseAux]
    by_cases ha : pySpace a
    · rw [if_pos ha]
      cases b with
      | true => exact ih true
      | false =>
        simp only [Bool.false_eq_true, if_false]
        have hh := collapseAux_headNotSpace rest
        have ht := ih true
        cases hc : collapseAux true rest with
        | nil => rfl
        | cons x xs =>
          rw [hc] at hh ht
          simp only [noTwoSpaces, Bool.and_eq_true]
          refine ⟨?_, ht⟩
          simp only [headNotSpace] at hh
          simp only [Bool.not_eq_true'] at hh ⊢
          simp [hh]
    · rw [if_neg ha]
      have ht := ih false
      cases hc : collapseAux false rest with
      | nil => rfl
      | cons x xs =>
        rw [hc] at ht
        simp only [noTwoSpaces, Bool.and_eq_true]
        refine ⟨?_, ht⟩
        simp only [Bool.not_eq_true', Bool.and_eq_false_iff]
        left
        simp [ha]

theorem collapseAux_all_blank (l : List Char) :
    ∀ b ch, ch ∈ collapseAux b l → pySpace ch = true → ch = ' ' := by
  induction l with
  | nil => intro b ch h; simp [collapseAux] at h
  | cons a rest ih =>
    intro b ch h hsp
    simp only [collapseAux] at h
    by_cases ha : pySpace a
    · rw [if_pos ha] at h
      cases b with
      | true => exact ih true ch h hsp
      | false =>
        simp only [Bool.false_eq_true, if_false, List.mem_cons] at h
        rcases h with h | h
        · exact h
        · exact ih true ch h hsp
    · rw [if_neg ha] at h
      rcases List.mem_cons.mp h with h | h
      · subst h; exact absurd hsp (by simp [ha])
      · exact ih false ch h hsp

theorem mem_dropWhile {p : Char → Bool} {ch : Char} {l : List Char}
    (h : ch ∈ l.dropWhile p) : ch ∈ l := by
  induction l with
  | nil => simp [List.dropWhile] at h
  | cons a rest ih =>
    simp only [List.dropWhile] at h
    by_cases ha : p a
    · rw [ha] at h
      exact List.mem_cons_of_mem _ (ih h)
    · simp only [Bool.not_eq_true] at ha
      rw [ha] at h
      exact h

theorem mem_dropTrailingWs {ch : Char} {l : List Char}
    (h : ch ∈ dropTrailingWs l) : ch ∈ l := by
  induction l with
  | nil => simp [dropTrailingWs] at h
  | cons a rest ih =>
    simp only [dropTrailingWs] at h
    by_cases hc : (dropTrailingWs rest).isEmpty && pySpace a
    · rw [if_pos hc] at h; simp at h
    · rw [if_neg hc] at h
      rcases List.mem_cons.mp h with h | h
      · subst h; exact List.mem_cons_self _ _
      · exact List.mem_cons_of_mem _ (ih h)

theorem dropWhile_headNotSpace (l : List Char) :
    headNotSpace (l.dropWhile pySpace) = true := by
  induction l with
  | nil => rfl
  | cons a rest ih =>
    simp only [List.dropWhile]
    by_cases ha : pySpace a
    · rw [ha]; exact ih
    · simp only [Bool.not_eq_true] at ha
      rw [ha]
      simp [headNotSpace, ha]

theorem dropWhile_noTwoSpaces (l : List Char)
    (h : noTwoSpaces l = true) : noTwoSpaces (l.dropWhile pySpace) = true := by
  induction l with
  | nil => exact h
  | cons a rest ih =>
    simp only [List.dropWhile]
    by_cases ha : pySpace a
    · rw [ha]; exact ih (noTwoSpaces_tail _ _ h)
    · simp only [Bool.not_eq_true] at ha
      rw [ha]
      exact h

theorem dropTrailingWs_head (l : List Char) :
    dropTrailingWs l = [] ∨ (dropTrailingWs l).head? = l.head? := by
  cases l with
  | nil => left; rfl
  | cons a rest =>
    simp only [dropTrailingWs]
    by_cases hc : (dropTrailingWs rest).isEmpty && pySpace a
    · left; rw [if_pos hc]
    · right; rw [if_neg hc]; rfl

theorem dropTrailingWs_noTwoSpaces (l : List Char)
    (h : noTwoSpaces l = true) : noTwoSpaces (dropTrailingWs l) = true := by
  induction l with
  | nil => exact h
  | cons a rest ih =>
    simp only [dropTrailingWs]
    by_cases hc : (dropTrailingWs rest).isEmpty && pySpace a
    · rw [if_pos hc]; rfl
    · rw [if_neg hc]
      have hrest := ih (noTwoSpaces_tail _ _ h)
      cases hd : dropTrailingWs rest with
      | nil => rfl
      | cons x xs =>
        rw [hd] at hrest
        simp only [noTwoSpaces, Bool.and_eq_true]
        refine ⟨?_, hrest⟩
        rcases dropTrailingWs_head rest with he | he
        · rw [hd] at he; cases he
        · rw [hd] at he
          cases rest with
          | nil => simp [dropTrailingWs] at hd
          | cons y ys =>
            simp only [List.head?] at he
            have hxy : x = y := by
              injection he
            subst hxy
            simp only [noTwoSpaces, Bool.and_eq_true] at h
            exact h.1

theorem dropTrailingWs_headNotSpace (l : List Char)
    (h : headNotSpace l = true) : headNotSpace (dropTrailingWs l) = true := by
  rcases dropTrailingWs_head l with he | he
  · rw [he]; rfl
  · cases hd : dropTrailingWs l with
    | nil => rfl
    | cons x xs =>
      rw [hd] at he
      cases l with
      | nil => simp at he
      | cons a rest =>
        simp only [List.head?] at he
        have : x = a := by injection he
        subst this
        simpa [headNotSpace] using h

theorem dropTrailingWs_lastNotSpace (l : List Char) :
    lastNotSpace (dropTrailingWs l) = true := by
  induction l with
  | nil => rfl
  | cons a rest ih =>
    simp only [dropTrailingWs]
    by_cases hc : (dropTrailingWs rest).isEmpty && pySpace a
    · rw [if_pos hc]; rfl
    · rw [if_neg hc]
      cases hd : dropTrailingWs rest with
      | nil =>
        rw [hd] at hc
        simp only [List.isEmpty_nil, Bool.true_and] at hc
        simp only [lastNotSpace, Bool.not_eq_true']
        cases hpa : pySpace a
        · rfl
        · exact absurd hpa hc
      | cons x xs =>
        rw [hd] at ih
        simpa [lastNotSpace] using ih

theorem replNbsp_id (l : List Char) (h : ∀ ch ∈ l, ch ≠ '\xa0') :
    replNbsp l = l := by
  induction l with
  | nil => rfl
  | cons a rest ih =>
    simp only [replNbsp, List.map_cons]
    rw [if_neg (h a (List.mem_cons_self _ _))]
    have := ih fun ch hch => h ch (List.mem_cons_of_mem _ hch)
    simp only [replNbsp] at this
    rw [this]

theorem collapseAux_id (l : List Char)
    (hb : ∀ ch ∈ l, pySpace ch = true → ch = ' ')
    (hn : noTwoSpaces l = true) :
    collapseAux false l = l ∧
      (headNotSpace l = true → collapseAux true l = l) := by
  induction l with
  | nil => exact ⟨rfl, fun _ => rfl⟩
  | cons a rest ih =>
    have hbr : ∀ ch ∈ rest, pySpace ch = true → ch = ' ' :=
      fun ch hch => hb ch (List.mem_cons_of_mem _ hch)
    have hnr := noTwoSpaces_tail _ _ hn
    obtain ⟨ihf, iht⟩ := ih hbr hnr
    constructor
    · simp only [collapseAux]
      by_cases ha : pySpace a
      · rw [if_pos ha]
        have ha' : a = ' ' := hb a (List.mem_cons_self _ _) ha
        have hhead := noTwoSpaces_head _ _ hn ha
        rw [iht hhead, ha']
        simp
      · rw [if_neg ha, ihf]
    · intro hh
      simp only [collapseAux]
      simp only [headNotSpace, Bool.not_eq_true'] at hh
      rw [if_neg (by simp [hh]), ihf]

theorem dropWhile_id (l : List Char) (h : headNotSpace l = true) :
    l.dropWhile pySpace = l := by
  cases l with
  | nil => rfl
  | cons a rest =>
    simp only [headNotSpace, Bool.not_eq_true'] at h
    simp [List.dropWhile, h]

theorem dropTrailingWs_id (l : List Char) (h : lastNotSpace l = true) :
    dropTrailingWs l = l := by
  induction l with
  | nil => rfl
  | cons a rest ih =>
    cases rest with
    | nil =>
      simp only [lastNotSpace, Bool.not_eq_true'] at h
      simp [dropTrailingWs, h]
    | cons b rs =>
      have hr : lastNotSpace (b :: rs) = true := by
        simpa [lastNotSpace] using h
      have hid : dropTrailingWs (b :: rs) = b :: rs := ih hr
      have hstep : dropTrailingWs (a :: b :: rs) =
          if (dropTrailingWs (b :: rs)).isEmpty && pySpace a then []
          else a :: dropTrailingWs (b :: rs) := rfl
      rw [hstep, hid]
      simp

theorem cList_all_blank (l : List Char) :
    ∀ ch ∈ cList l, pySpace ch = true → ch = ' ' := by
  intro ch hch hsp
  have h1 : ch ∈ collapseAux false (replNbsp l) :=
    mem_dropWhile (mem_dropTrailingWs hch)
  exact collapseAux_all_blank _ false ch h1 hsp

theorem cList_noTwoSpaces (l : List Char) : noTwoSpaces (cList l) = true :=
  dropTrailingWs_noTwoSpaces _
    (dropWhile_noTwoSpaces _ (collapseAux_noTwoSpaces _ false))

theorem cList_headNotSpace (l : List Char) :
    headNotSpace (cList l) = true :=
  dropTrailingWs_headNotSpace _ (dropWhile_headNotSpace _)

theorem cList_lastNotSpace (l : List Char) :
    lastNotSpace (cList l) = true :=
  dropTrailingWs_lastNotSpace _

theorem cList_idem (l : List Char) : cList (cList l) = cList l := by
  have hb := cList_all_blank l
  have hn := cList_noTwoSpaces l
  have hh := cList_headNotSpace l
  have hl := cList_lastNotSpace l
  have h1 : replNbsp (cList l) = cList l := by
    refine replNbsp_id _ ?_
    intro ch hch
    intro heq
    have : ch = ' ' := hb ch hch (by rw [heq]; simp [pySpace])
    rw [heq] at this
    exact absurd this (by decide)
  have h2 : collapseAux false (cList l) = cList l :=
    (collapseAux_id _ hb hn).1
  show stripWs (collapseWs (replNbsp (cList l))) = cList l
  rw [h1]
  show stripWs (collapseAux false (cList l)) = cList l
  rw [h2]
  show dropTrailingWs ((cList l).dropWhile pySpace) = cList l
  rw [dropWhile_id _ hh, dropTrailingWs_id _ hl]

/-! ### String-search utilities

`findSub` is Python's `str.find` (first index of a substring); the regex
searches used by the scraper are modelled as explicit left-to-right scans
with the same leftmost-match semantics. -/

/-- First index at which `key` occurs as a contiguous sublist. -/
def findSub : List Char → List Char → Option Nat
  | l, key =>
    if key.isPrefixOf l then some 0
    else
      match l with
      | [] => none
      | _ :: rest => (findSub rest key).map (· + 1)

def containsSub (l key : List Char) : Bool := (findSub l key).isSome

/-- The character class `[\s\d,]` of the price regex. -/
def kshClass (ch : Char) : Bool := pySpace ch || ch.isDigit || ch == ','

/-- Model of `re.search(r"KSh[\s\d,]+", s)` returning `m.group()`: the literal
`KSh` followed by the maximal non-empty run of whitespace/digits/commas,
at the leftmost position where that run is non-empty. -/
def kshMatch : List Char → Option (List Char)
  | [] => none
  | l@(_ :: rest) =>
    if ['K', 'S', 'h'].isPrefixOf l then
      if ((l.drop 3).takeWhile kshClass).isEmpty then kshMatch rest
      else some (['K', 'S', 'h'] ++ (l.drop 3).takeWhile kshClass)
    else kshMatch rest

/-- Matcher for the bed/bath/size regexes `(\d+)\s*Bedrooms?`,
`(\d+)\s*Bathrooms?`, `([\d,]+)\s*m²` at one position: a non-empty run of
`cls` characters, optional whitespace, the literal word, and (when `optS`)
an optional trailing `s`; returns `m.group(0)`. -/
def classWordAt (cls : Char → Bool) (word : List Char) (optS : Bool)
    (l : List Char) : Option (List Char) :=
  if (l.takeWhile cls).isEmpty then none
  else
    let ds := l.takeWhile cls
    let after := l.drop ds.length
    let ws := after.takeWhile pySpace
    let after2 := after.drop ws.length
    if word.isPrefixOf after2 then
      if optS && ((after2.drop word.length).head? == some 's') then
        some (ds ++ ws ++ word ++ ['s'])
      else some (ds ++ ws ++ word)
    else none

def classWordSearch (cls : Char → Bool) (word : List Char) (optS : Bool) :
    List Char → Option (List Char)
  | [] => none
  | l@(_ :: rest) =>
    (classWordAt cls word optS l) <|> classWordSearch cls word optS rest

/-! ### BuyRentKenya extractor `parse_brk` (source lines 102-171)

The DOM navigation of BeautifulSoup is made explicit: each `<h2>` found by
`soup.find_all("h2")` is carried as an `H2Block` holding the h2's text,
the text of its `find_next_sibling("h3")`, its ancestor chain (for the
`/listings/` link walk) and its following siblings up to the parse-order
data the source reads (`next_siblings`). -/

structure BrkAnc where
  name : String
  href : String
  deriving DecidableEq, Repr

inductive BrkSib where
  | tag (name : String) (text : String)
  | navStr (s : String)
  deriving DecidableEq, Repr

structure H2Block where
  h2text : String
  nextH3 : Option String
  ancestors : List BrkAnc
  sibs : List BrkSib
  deriving DecidableEq, Repr

/-- The six-step parent walk looking for `<a href="/listings/...">`. -/
def brkHref (base : String) (ancs : List BrkAnc) : String :=
  match (ancs.take 6).find? (fun a =>
      a.name == "a" && containsSub a.href.data "/listings/".data) with
  | some a =>
    if "http".data.isPrefixOf a.href.data then a.href else base ++ a.href
  | none => ""

def locBadWords : List String :=
  ["Bedroom", "Bathroom", "m²", "KSh", "APARTMENT", "HOUSE",
   "FOR SALE", "FOR RENT"]

def locBad (t : String) : Bool :=
  locBadWords.any fun w => containsSub t.data w.data

/-- First NavigableString sibling before the next `<h2>` that looks like a
suburb (stripped, length in (3,70), free of the listing keywords). -/
def brkLocation : List BrkSib → String
  | [] => ""
  | BrkSib.tag name _ :: rest =>
    if name == "h2" then "" else brkLocation rest
  | BrkSib.navStr s :: rest =>
    if (String.mk (stripWs s.data)) ≠ "" ∧
        3 < (String.mk (stripWs s.data)).length ∧
        (String.mk (stripWs s.data)).length < 70 ∧
        locBad (String.mk (stripWs s.data)) = false then
      String.mk (stripWs s.data)
    else brkLocation rest

/-- Concatenation of all sibling texts up to the next `<h2>`. -/
def brkChunk : List BrkSib → String
  | [] => ""
  | BrkSib.tag name text :: rest =>
    if name == "h2" then "" else " " ++ text ++ brkChunk rest
  | BrkSib.navStr s :: rest => " " ++ s ++ brkChunk rest

def digitOrComma (ch : Char) : Bool := ch.isDigit || ch == ','

/-- Price of one `<h2>` block: the `KSh[\s\d,]+` match in the following
`<h3>`'s text, normalized; `""` when absent. -/
def brkPrice (b : H2Block) : String :=
  match b.nextH3 with
  | none => ""
  | some h3 =>
    match kshMatch h3.data with
    | some m => c (String.mk m)
    | none => ""

/-- The per-`<h2>` body of `parse_brk`: `none` models `continue` (no title
or no price). -/
def brkRecordOf (base : String) (b : H2Block) : Option Record :=
  if c b.h2text == "" || (c b.h2text).length < 8 then none
  else if brkPrice b == "" then none
  else
    some (row "BuyRentKenya" "" (c b.h2text) (brkPrice b)
      (brkLocation b.sibs)
      (((classWordSearch Char.isDigit
          ['B', 'e', 'd', 'r', 'o', 'o', 'm'] true
          (brkChunk b.sibs).data).map String.mk).getD "")
      (((classWordSearch Char.isDigit
          ['B', 'a', 't', 'h', 'r', 'o', 'o', 'm'] true
          (brkChunk b.sibs).data).map String.mk).getD "")
      (((classWordSearch digitOrComma ['m', '²'] false
          (brkChunk b.sibs).data).map String.mk).getD "")
      "" (brkHref base b.ancestors))

/-- The within-page dedup at the end of `parse_brk`, keyed on
`title + price` (no emptiness condition, unlike the final `dedup`). -/
def brkDedupGo (seen : List String) : List Record → List Record
  | [] => []
  | r :: rest =>
    if (r.title ++ r.price) ∈ seen then brkDedupGo seen rest
    else r :: brkDedupGo ((r.title ++ r.price) :: seen) rest

def parse_brk (base : String) (blocks : List H2Block) : List Record :=
  brkDedupGo [] (blocks.filterMap (brkRecordOf base))

/-! ### BuyRentKenya pagination `scrape_brk` (source lines 174-209)

One fetch outcome per attempted page: `none` models `fetch` returning no
soup (non-200 / error), `some pg` a parsed page together with the result
of the next-link query.  The returned `Nat` counts fetch attempts. -/

structure BrkPage where
  blocks : List H2Block
  hasNext : Bool

def MAX_PAGES : Nat := 10

def brkBase : String := "https://www.buyrentkenya.com"

def brkPageRows (disp : String) (pg : BrkPage) : List Record :=
  (parse_brk brkBase pg.blocks).map fun r => { r with listing_type := disp }

def scrapeBrkGo (disp : String) : Nat → List (Option BrkPage) → Nat × List Record
  | 0, _ => (0, [])
  | _ + 1, [] => (0, [])
  | _ + 1, none :: _ => (1, [])
  | n + 1, some pg :: rest =>
    if (brkPageRows disp pg).isEmpty then (1, brkPageRows disp pg)
    else if pg.hasNext then
      ((scrapeBrkGo disp n rest).1 + 1,
        brkPageRows disp pg ++ (scrapeBrkGo disp n rest).2)
    else (1, brkPageRows disp pg)

def scrape_brk (disp : String) (pages : List (Option BrkPage)) :
    Nat × List Record :=
  scrapeBrkGo disp MAX_PAGES pages

/-! ### Property24 extractor and pagination `scrape_p24` (source 329-413)

Selector queries are carried as explicit data: a `P24Card` holds the
results of the per-card sub-selectors (`select_one` giving the element's
text, or `none` on a selector miss), plus the card's whole text (used by
the `KSh` filter of the fallback selector).  A `P24TextNode` is one text
node matched by `find_all(string=re.compile(r"KSh[\s\d,]+"))` together
with its parent's `get_text(" ", strip=True)` and the text of the nearest
previous h2/h3/h4 heading. -/

structure P24Card where
  title : Option String
  price : Option String
  location : Option String
  spanTexts : List String
  href : Option String
  fullText : String

structure P24TextNode where
  parentText : Option String
  headingText : Option String

structure P24Page where
  tiles : List P24Card
  p24Elems : List P24Card
  kshNodes : List P24TextNode

def p24Base : String := "https://www.property24.co.ke"

def p24CardRecord (disp : String) (card : P24Card) : Record :=
  row "Property24" disp (card.title.getD "") (card.price.getD "")
    (card.location.getD "")
    ((card.spanTexts.find? fun s => containsSub s.data "Bed".data).getD "")
    ((card.spanTexts.find? fun s => containsSub s.data "Bath".data).getD "")
    ((card.spanTexts.find? fun s => containsSub s.data "m²".data).getD "")
    ""
    (if card.href.getD "" ≠ "" ∧
        ¬ ("http".data.isPrefixOf (card.href.getD "").data) then
      p24Base ++ card.href.getD ""
    else card.href.getD "")

/-- The `.p24_regularTile` primary selector, else any `[class*='p24_']`
element whose text contains `KSh`. -/
def p24PageCards (pg : P24Page) : List P24Card :=
  if pg.tiles.isEmpty then
    pg.p24Elems.filter fun card => containsSub card.fullText.data "KSh".data
  else pg.tiles

/-- Card records kept by the `if r_["title"] or r_["price"]` guard. -/
def p24CardRecords (disp : String) (pg : P24Page) : List Record :=
  ((p24PageCards pg).map (p24CardRecord disp)).filter fun r =>
    r.title ≠ "" || r.price ≠ ""

/-- The `KSh` text-block fallback (source 390-407): one record per matched
text node whose parent exists and whose parent text re-matches the price
regex. -/
def p24TextRecords (disp : String) (pg : P24Page) : List Record :=
  pg.kshNodes.filterMap fun n =>
    match n.parentText with
    | none => none
    | some pt =>
      match kshMatch pt.data with
      | none => none
      | some pm =>
        some (row "Property24" disp (n.headingText.getD "") (String.mk pm)
          "Nairobi" "" "" "" "" "")

/-- Records one page adds to the running `results` list.  The fallback is
guarded by `if not results:` where `results` is the list accumulated
across ALL pages of this source/type so far, including this page's card
records. -/
def p24Contribution (disp : String) (priorEmpty : Bool) (pg : P24Page) :
    List Record :=
  p24CardRecords disp pg ++
    (if priorEmpty && (p24CardRecords disp pg).isEmpty then
      p24TextRecords disp pg
    else [])

/-- The p24 page loop: no stop on an empty page — only a navigation error
(`none`) breaks before MAX_PAGES. -/
def scrapeP24Go (disp : String) :
    Nat → List (Option P24Page) → List Record → Nat × List Record
  | 0, _, acc => (0, acc)
  | _ + 1, [], acc => (0, acc)
  | _ + 1, none :: _, acc => (1, acc)
  | n + 1, some pg :: rest, acc =>
    ((scrapeP24Go disp n rest
        (acc ++ p24Contribution disp acc.isEmpty pg)).1 + 1,
      (scrapeP24Go disp n rest
        (acc ++ p24Contribution disp acc.isEmpty pg)).2)

def scrape_p24 (disp : String) (pages : List (Option P24Page)) :
    Nat × List Record :=
  scrapeP24Go disp MAX_PAGES pages []

/-! ### PigiaMe page extraction (source 432-517)

Only the per-page record extraction is modelled (the outer slug × page
loops are not needed by any claim).  `textMatches` carries the result of
`re.findall(r'([\w\s]+(?:Bed|...|Studio)[^\n]{5,80})[\s\S]{0,200}?(KSh[\s\d,]+)', html)`:
the (title_raw, price_raw) pairs. -/

structure PgCard where
  title : Option String
  price : Option String
  location : Option String
  bedrooms : Option String
  href : Option String

structure PgPage where
  cards : List PgCard
  textMatches : List (String × String)

def pgBase : String := "https://www.pigiame.co.ke"

def pgCardRecord (disp : String) (card : PgCard) : Record :=
  row "PigiaMe" disp (card.title.getD "") (card.price.getD "")
    (card.location.getD "") (card.bedrooms.getD "") "" "" ""
    (if card.href.getD "" ≠ "" ∧
        ¬ ("http".data.isPrefixOf (card.href.getD "").data) then
      pgBase ++ card.href.getD ""
    else card.href.getD "")

def pgCardRecords (disp : String) (pg : PgPage) : List Record :=
  (pg.cards.map (pgCardRecord disp)).filter fun r => r.title ≠ ""

/-- Model of `re.search(r'(\d+)\s*[Bb]ed', t)` returning `m.group(0)`. -/
def pgBedAt (l : List Char) : Option (List Char) :=
  if (l.takeWhile Char.isDigit).isEmpty then none
  else
    let ds := l.takeWhile Char.isDigit
    let after := l.drop ds.length
    let ws := after.takeWhile pySpace
    let after2 := after.drop ws.length
    if ['B', 'e', 'd'].isPrefixOf after2 then some (ds ++ ws ++ ['B', 'e', 'd'])
    else if ['b', 'e', 'd'].isPrefixOf after2 then
      some (ds ++ ws ++ ['b', 'e', 'd'])
    else none

def pgBedSearch : List Char → Option (List Char)
  | [] => none
  | l@(_ :: rest) => pgBedAt l <|> pgBedSearch rest

/-- The text-extraction block (source 466-481): keep a match when the
normalized title and price are non-empty and the title is longer than 5. -/
def pgTextRecords (disp : String) (pg : PgPage) : List Record :=
  pg.textMatches.filterMap fun m =>
    if c m.1 ≠ "" ∧ c m.2 ≠ "" ∧ 5 < (c m.1).length then
      some (row "PigiaMe" disp (c m.1) (c m.2) "Nairobi"
        (((pgBedSearch (c m.1).data).map String.mk).getD "") "" "" "" "")
    else none

/-- One PigiaMe page's records: the text fallback runs exactly when no DOM
card selector matched. -/
def pigiamePageRecords (disp : String) (pg : PgPage) : List Record :=
  if pg.cards.isEmpty then pgTextRecords disp pg else pgCardRecords disp pg

/-! ### JSON values and `json.loads` (for the Jiji extractor)

`Json` models the Python objects produced by `json.loads`; the fueled
parser accepts the JSON subset the embedded payloads use (numeric
literals are integers; floats never occur in the claims' inputs).
Exceptions are explicit: `json.loads` returns `Except` and raises
`jsonDecodeError`; `str.index` raises `valueError` when absent. -/

inductive Json where
  | null
  | bool (b : Bool)
  | num (n : Int)
  | str (s : String)
  | arr (l : List Json)
  | obj (l : List (String × Json))
  deriving Repr

inductive PyExc where
  | jsonDecodeError
  | valueError
  deriving Repr, DecidableEq

def jsonWsChar (ch : Char) : Bool :=
  ch == ' ' || ch == '\t' || ch == '\n' || ch == '\r'

def skipJsonWs (l : List Char) : List Char := l.dropWhile jsonWsChar

def hexVal (ch : Char) : Option Nat :=
  if '0' ≤ ch ∧ ch ≤ '9' then some (ch.toNat - 48)
  else if 'a' ≤ ch ∧ ch ≤ 'f' then some (ch.toNat - 87)
  else if 'A' ≤ ch ∧ ch ≤ 'F' then some (ch.toNat - 55)
  else none

def escChar : Char → Option Char
  | '"' => some '"'
  | '\\' => some '\\'
  | '/' => some '/'
  | 'b' => some '\x08'
  | 'f' => some '\x0c'
  | 'n' => some '\n'
  | 'r' => some '\r'
  | 't' => some '\t'
  | _ => none

/-- Body of a JSON string literal, after the opening quote. -/
def parseStrChars : List Char → Option (List Char × List Char)
  | [] => none
  | '"' :: rest => some ([], rest)
  | '\\' :: 'u' :: h1 :: h2 :: h3 :: h4 :: rest =>
    match hexVal h1, hexVal h2, hexVal h3, hexVal h4 with
    | some a, some b, some c9, some d =>
      (parseStrChars rest).map fun p =>
        (Char.ofNat (((a * 16 + b) * 16 + c9) * 16 + d) :: p.1, p.2)
    | _, _, _, _ => none
  | '\\' :: e :: rest =>
    match escChar e with
    | some ch => (parseStrChars rest).map fun p => (ch :: p.1, p.2)
    | none => none
  | ch :: rest =>
    if ch == '\\' then none
    else (parseStrChars rest).map fun p => (ch :: p.1, p.2)

def digitsToNat (ds : List Char) : Nat :=
  ds.foldl (fun acc ch => acc * 10 + (ch.toNat - 48)) 0

/-- Integer literals (the floats of full JSON are outside the modelled
subset and make the parse fail, as no claim input contains one). -/
def parseIntChars (l : List Char) : Option (Int × List Char) :=
  let neg := l.head? == some '-'
  let l1 := if neg then l.drop 1 else l
  let ds := l1.takeWhile Char.isDigit
  if ds.isEmpty then none
  else if 1 < ds.length && ds.head? == some '0' then none
  else
    match l1.drop ds.length with
    | '.' :: _ => none
    | 'e' :: _ => none
    | 'E' :: _ => none
    | rest =>
      some (if neg then -(Int.ofNat (digitsToNat ds)) else
        Int.ofNat (digitsToNat ds), rest)

mutual

def parseVal : Nat → List Char → Option (Json × List Char)
  | 0, _ => none
  | fuel + 1, l =>
    match skipJsonWs l with
    | '{' :: rest =>
      match skipJsonWs rest with
      | '}' :: r2 => some (Json.obj [], r2)
      | l2 => (parseObjItems fuel l2).map fun p => (Json.obj p.1, p.2)
    | '[' :: rest =>
      match skipJsonWs rest with
      | ']' :: r2 => some (Json.arr [], r2)
      | l2 => (parseArrItems fuel l2).map fun p => (Json.arr p.1, p.2)
    | '"' :: rest =>
      (parseStrChars rest).map fun p => (Json.str (String.mk p.1), p.2)
    | 't' :: 'r' :: 'u' :: 'e' :: rest => some (Json.bool true, rest)
    | 'f' :: 'a' :: 'l' :: 's' :: 'e' :: rest => some (Json.bool false, rest)
    | 'n' :: 'u' :: 'l' :: 'l' :: rest => some (Json.null, rest)
    | l2 => (parseIntChars l2).map fun p => (Json.num p.1, p.2)

def parseArrItems : Nat → List Char → Option (List Json × List Char)
  | 0, _ => none
  | fuel + 1, l =>
    match parseVal fuel l with
    | none => none
    | some (v, r) =>
      match skipJsonWs r with
      | ',' :: r2 =>
        match parseArrItems fuel r2 with
        | none => none
        | some (vs, r3) => some (v :: vs, r3)
      | ']' :: r2 => some ([v], r2)
      | _ => none

def parseObjItems : Nat → List Char → Option (List (String × Json) × List Char)
  | 0, _ => none
  | fuel + 1, l =>
    match l with
    | '"' :: rest =>
      match parseStrChars rest with
      | none => none
      | some (k, r) =>
        match skipJsonWs r with
        | ':' :: r2 =>
          match parseVal fuel r2 with
          | none => none
          | some (v, r3) =>
            match skipJsonWs r3 with
            | ',' :: r4 =>
              match parseObjItems fuel (skipJsonWs r4) with
              | none => none
              | some (kvs, r5) => some ((String.mk k, v) :: kvs, r5)
            | '}' :: r4 => some ([(String.mk k, v)], r4)
            | _ => none
        | _ => none
    | _ => none

end

def json_loads (s : String) : Except PyExc Json :=
  match parseVal (2 * s.data.length + 2) s.data with
  | some (v, r) =>
    if (skipJsonWs r).isEmpty then .ok v else .error .jsonDecodeError
  | none => .error .jsonDecodeError

/-! ### `parse_jiji_adverts` (source lines 221-250) -/

def advertsKey : List Char := ['"', 'a', 'd', 'v', 'e', 'r', 't', 's', '"']

def totalKey : List Char :=
  ['"', 't', 'o', 't', 'a', 'l', '_', 'c', 'o', 'u', 'n', 't', '"']

/-- The `\s*,\s*"total_count"` continuation of the first regex. -/
def suffixOkTotal (l : List Char) : Bool :=
  match l.dropWhile pySpace with
  | ',' :: r => totalKey.isPrefixOf (r.dropWhile pySpace)
  | _ => false

/-- The lazy `(\[[\s\S]+?\])` group: scanning left to right, the first `]`
preceded by a non-empty body and (for the first regex) followed by
`\s*,\s*"total_count"` closes the group. -/
def findClose (wantTotal : Bool) : List Char → List Char → Option (List Char)
  | [], _ => none
  | ']' :: rest, acc =>
    if acc ≠ [] && (!wantTotal || suffixOkTotal rest) then
      some ('[' :: (acc.reverse ++ [']']))
    else findClose wantTotal rest (']' :: acc)
  | ch :: rest, acc => findClose wantTotal rest (ch :: acc)

/-- Continuation of both regexes after the `"adverts"` literal:
`\s*:\s*\[` then the lazy group. -/
def matchAdvertsAt (wantTotal : Bool) (l : List Char) : Option (List Char) :=
  match l.dropWhile pySpace with
  | ':' :: r =>
    match r.dropWhile pySpace with
    | '[' :: body => findClose wantTotal body []
    | _ => none
  | _ => none

/-- Model of `re.search` with leftmost-match semantics: try the continuation at
every occurrence of `"adverts"` in order. -/
def advertsSearch (wantTotal : Bool) : List Char → Option (List Char)
  | [] => none
  | l@(_ :: rest) =>
    if advertsKey.isPrefixOf l then
      (matchAdvertsAt wantTotal (l.drop advertsKey.length)) <|>
        advertsSearch wantTotal rest
    else advertsSearch wantTotal rest

def strIndexE (l key : List Char) : Except PyExc Nat :=
  match findSub l key with
  | some i => .ok i
  | none => .error .valueError

/-- The balanced-bracket recovery scan: track `[`/`]` depth from the first
`[`; at the first `]` where the depth returns to zero, return the
substring from that first `[` through this `]`.  When the depth never
returns to zero (a truncated array) there is nothing to parse. -/
def scanBal : List Char → Int → Option (List Char) → Option (List Char)
  | [], _, _ => none
  | '[' :: rest, depth, acc =>
    match acc with
    | none => scanBal rest (depth + 1) (some ['['])
    | some a => scanBal rest (depth + 1) (some ('[' :: a))
  | ']' :: rest, depth, acc =>
    if depth - 1 = 0 ∧ acc.isSome then
      acc.map fun a => (']' :: a).reverse
    else scanBal rest (depth - 1) (acc.map fun a => ']' :: a)
  | ch :: rest, depth, acc => scanBal rest depth (acc.map fun a => ch :: a)

/-- Embedding of `parse_jiji_adverts`: one iteration per `<script>` string.  Scripts
without the `"adverts"` key are skipped; regex match then `json.loads`,
whose decode error triggers the balanced scan; any failure falls through
to the next script; exhaustion returns the empty list. -/
def parse_jiji_adverts : List String → Except PyExc Json
  | [] => .ok (Json.arr [])
  | text :: rest =>
    if containsSub text.data advertsKey = false then parse_jiji_adverts rest
    else
      match advertsSearch true text.data <|> advertsSearch false text.data with
      | none => parse_jiji_adverts rest
      | some g =>
        match json_loads (String.mk g) with
        | .ok j => .ok j
        | .error _ =>
          match strIndexE text.data advertsKey with
          | .error e => .error e
          | .ok idx =>
            match scanBal (text.data.drop idx) 0 none with
            | none => parse_jiji_adverts rest
            | some sub =>
              match json_loads (String.mk sub) with
              | .ok j => .ok j
              | .error _ => parse_jiji_adverts rest

/-! ### The Jiji advert → record loop (source lines 288-311) -/

def jLookup (kvs : List (String × Json)) (k : String) : Option Json :=
  ((kvs.reverse.find? fun kv => kv.1 == k)).map (·.2)

def jGet : Json → String → Option Json
  | Json.obj kvs, k => jLookup kvs k
  | _, _ => none

def jTruthy : Json → Bool
  | Json.null => false
  | Json.bool b => b
  | Json.num n => n != 0
  | Json.str s => s ≠ ""
  | Json.arr l => !l.isEmpty
  | Json.obj l => !l.isEmpty

def joinComma (l : List String) : String := String.intercalate ", " l

mutual

/-- Python `repr` on the values `json.loads` can produce. -/
def pyRepr : Json → String
  | Json.null => "None"
  | Json.bool true => "True"
  | Json.bool false => "False"
  | Json.num n => toString n
  | Json.str s => "\x27" ++ s ++ "\x27"
  | Json.arr l => "[" ++ joinComma (pyReprList l) ++ "]"
  | Json.obj kvs => "\x7b" ++ joinComma (pyReprKvs kvs) ++ "\x7d"

def pyReprList : List Json → List String
  | [] => []
  | j :: rest => pyRepr j :: pyReprList rest

def pyReprKvs : List (String × Json) → List String
  | [] => []
  | (k, v) :: rest => ("\x27" ++ k ++ "\x27: " ++ pyRepr v) :: pyReprKvs rest

end

/-- Python `str`: like `repr` except on strings themselves. -/
def pyStr : Json → String
  | Json.str s => s
  | j => pyRepr j

/-- The coercion `str(v or "")` that `c` and `row` apply to raw values. -/
def pyOrEmpty (j : Json) : String := if jTruthy j then pyStr j else ""

/-- The body of `for adv in adverts` building one record. -/
def jijiRecord (base disp : String) (adv : Json) : Record :=
  let po0 := (jGet adv "price_obj").getD Json.null
  let po := if jTruthy po0 then po0 else Json.obj []
  let val :=
    match po with
    | Json.obj kvs => (jLookup kvs "value").getD (Json.str "")
    | _ => Json.str ""
  let price :=
    if jTruthy val then String.mk (stripWs ("KSh " ++ pyStr val).data)
    else pyStr ((jGet adv "price").getD (Json.str ""))
  let attrs0 := (jGet adv "attrs").getD Json.null
  let attrs1 := if jTruthy attrs0 then attrs0 else Json.obj []
  let attrs :=
    match attrs1 with
    | Json.arr l =>
      Json.obj (l.filterMap fun a =>
        match a with
        | Json.obj kvs =>
          some (pyStr ((jLookup kvs "name").getD (Json.str "")),
            (jLookup kvs "value").getD (Json.str ""))
        | _ => none)
    | j => j
  let hrefJ := (jGet adv "url").getD (Json.str "")
  let href :=
    if jTruthy hrefJ ∧ ¬ ("http".data.isPrefixOf (pyStr hrefJ).data) then
      base ++ pyStr hrefJ
    else pyOrEmpty hrefJ
  let locJ :=
    if jTruthy ((jGet adv "region_name").getD Json.null) then
      (jGet adv "region_name").getD Json.null
    else (jGet adv "town_name").getD (Json.str "")
  let bedsJ :=
    if jTruthy ((jGet attrs "Bedrooms").getD Json.null) then
      (jGet attrs "Bedrooms").getD Json.null
    else (jGet attrs "bedrooms").getD (Json.str "")
  let bathsJ :=
    if jTruthy ((jGet attrs "Bathrooms").getD Json.null) then
      (jGet attrs "Bathrooms").getD Json.null
    else (jGet attrs "bathrooms").getD (Json.str "")
  let sizeJ :=
    if jTruthy ((jGet attrs "Size").getD Json.null) then
      (jGet attrs "Size").getD Json.null
    else (jGet attrs "size").getD (Json.str "")
  row "Jiji" disp (pyOrEmpty ((jGet adv "title").getD (Json.str ""))) price
    (pyOrEmpty locJ) (pyStr bedsJ) (pyStr bathsJ) (pyStr sizeJ)
    (pyOrEmpty ((jGet adv "category_name").getD (Json.str ""))) href

def jijiAdvertsOf : Json → List Json
  | Json.arr l => l
  | _ => []

def jijiBase : String := "https://jiji.co.ke"

/-- One fetched Jiji page: parse the adverts payload and build one record
per advert (the loop has no filter — every advert yields a record). -/
def scrapeJijiPage (disp : String) (scripts : List String) :
    Except PyExc (List Record) :=
  match parse_jiji_adverts scripts with
  | .error e => .error e
  | .ok j => .ok ((jijiAdvertsOf j).map (jijiRecord jijiBase disp))

def exceptOk : Except PyExc Json → Bool
  | .ok _ => true
  | .error _ => false

/-! ### Helper lemmas for the claim theorems -/

theorem c_of_c (x : String) : c (c x) = c x :=
  congrArg String.mk (cList_idem x.data)

theorem mem_replNbsp_of {ch : Char} {l : List Char} (hch : ch ∈ l)
    (hne : ch ≠ '\xa0') : ch ∈ replNbsp l := by
  have : (if ch = '\xa0' then ' ' else ch) = ch := if_neg hne
  exact this ▸ List.mem_map_of_mem _ hch

theorem mem_collapseAux_of {ch : Char} {l : List Char} (hsp : pySpace ch = false) :
    ∀ b, ch ∈ l → ch ∈ collapseAux b l := by
  induction l with
  | nil => intro b h; cases h
  | cons a rest ih =>
    intro b h
    simp only [collapseAux]
    by_cases ha : pySpace a
    · have hch : ch ∈ rest := by
        rcases List.mem_cons.mp h with h | h
        · subst h; rw [hsp] at ha; cases ha
        · exact h
      rw [if_pos ha]
      cases b with
      | true => exact ih true hch
      | false =>
        simp only [Bool.false_eq_true, if_false]
        exact List.mem_cons_of_mem _ (ih true hch)
    · rw [if_neg ha]
      rcases List.mem_cons.mp h with h | h
      · subst h; exact List.mem_cons_self _ _
      · exact List.mem_cons_of_mem _ (ih false h)

theorem mem_dropWhile_of {ch : Char} {l : List Char} (hsp : pySpace ch = false)
    (h : ch ∈ l) : ch ∈ l.dropWhile pySpace := by
  induction l with
  | nil => cases h
  | cons a rest ih =>
    simp only [List.dropWhile]
    by_cases ha : pySpace a
    · rw [ha]
      rcases List.mem_cons.mp h with h | h
      · subst h; rw [hsp] at ha; cases ha
      · exact ih h
    · simp only [Bool.not_eq_true] at ha
      rw [ha]
      exact h

theorem mem_dropTrailingWs_of {ch : Char} {l : List Char}
    (hsp : pySpace ch = false) (h : ch ∈ l) : ch ∈ dropTrailingWs l := by
  induction l with
  | nil => cases h
  | cons a rest ih =>
    simp only [dropTrailingWs]
    rcases List.mem_cons.mp h with h | h
    · subst h
      rw [if_neg (by simp [hsp])]
      exact List.mem_cons_self _ _
    · have hmem := ih h
      have hne : (dropTrailingWs rest).isEmpty = false := by
        cases hd : dropTrailingWs rest with
        | nil => rw [hd] at hmem; cases hmem
        | cons x xs => rfl
      rw [if_neg (by simp [hne])]
      exact List.mem_cons_of_mem _ hmem

theorem c_ne_empty_of_mem {s : String} {ch : Char} (hch : ch ∈ s.data)
    (hsp : pySpace ch = false) : c s ≠ "" := by
  have hna : ch ≠ '\xa0' := by
    intro he
    subst he
    simp [pySpace] at hsp
  have h1 : ch ∈ cList s.data :=
    mem_dropTrailingWs_of hsp
      (mem_dropWhile_of hsp
        (mem_collapseAux_of hsp false (mem_replNbsp_of hch hna)))
  intro he
  have : (c s).data = ([] : List Char) := by rw [he]
  have h2 : (c s).data = cList s.data := rfl
  rw [h2] at this
  rw [this] at h1
  cases h1

theorem dedupGo_key_ne (seen : List String) (l : List Record) :
    ∀ r ∈ dedupGo seen l, dedupKey r ≠ "" := by
  induction l generalizing seen with
  | nil => intro r hr; cases hr
  | cons a rest ih =>
    intro r hr
    simp only [dedupGo] at hr
    by_cases hk : dedupKey a ≠ "" ∧ dedupKey a ∉ seen
    · rw [if_pos hk] at hr
      rcases List.mem_cons.mp hr with hr | hr
      · subst hr; exact hk.1
      · exact ih _ r hr
    · rw [if_neg hk] at hr
      exact ih seen r hr

theorem brkDedupGo_subset (seen : List String) (l : List Record) :
    ∀ r ∈ brkDedupGo seen l, r ∈ l := by
  induction l generalizing seen with
  | nil => intro r hr; cases hr
  | cons a rest ih =>
    intro r hr
    simp only [brkDedupGo] at hr
    by_cases hk : (a.title ++ a.price) ∈ seen
    · rw [if_pos hk] at hr
      exact List.mem_cons_of_mem _ (ih seen r hr)
    · rw [if_neg hk] at hr
      rcases List.mem_cons.mp hr with hr | hr
      · subst hr; exact List.mem_cons_self _ _
      · exact List.mem_cons_of_mem _ (ih _ r hr)

theorem kshMatch_shape (l m : List Char) (h : kshMatch l = some m) :
    ∃ run, m = 'K' :: 'S' :: 'h' :: run := by
  induction l with
  | nil => cases h
  | cons a rest ih =>
    simp only [kshMatch] at h
    by_cases hp : ['K', 'S', 'h'].isPrefixOf (a :: rest)
    · rw [if_pos hp] at h
      by_cases he : (((a :: rest).drop 3).takeWhile kshClass).isEmpty
      · rw [if_pos he] at h; exact ih h
      · rw [if_neg he] at h
        refine ⟨((a :: rest).drop 3).takeWhile kshClass, ?_⟩
        injection h with h'
        exact h'.symm
    · rw [if_neg hp] at h
      exact ih h

theorem brkPrice_in_c_image (b : H2Block) :
    brkPrice b = "" ∨ ∃ m, brkPrice b = c (String.mk m) := by
  cases hh3 : b.nextH3 with
  | none => left; simp [brkPrice, hh3]
  | some h3 =>
    cases hkm : kshMatch h3.data with
    | none => left; simp [brkPrice, hh3, hkm]
    | some m => right; exact ⟨m, by simp [brkPrice, hh3, hkm]⟩

theorem brkRecordOf_price_ne (base : String) (b : H2Block) (r : Record)
    (h : brkRecordOf base b = some r) : r.price ≠ "" := by
  unfold brkRecordOf at h
  by_cases h1 : (c b.h2text == "" || decide ((c b.h2text).length < 8)) = true
  · rw [if_pos h1] at h; cases h
  · rw [if_neg h1] at h
    by_cases h2 : (brkPrice b == "") = true
    · rw [if_pos h2] at h; cases h
    · rw [if_neg h2] at h
      have hne : brkPrice b ≠ "" := by simpa using h2
      have hpr : r.price = c (brkPrice b) := by
        injection h with h'
        rw [← h']
        rfl
      rcases brkPrice_in_c_image b with him | ⟨m, him⟩
      · exact absurd him hne
      · rw [hpr, him, c_of_c, ← him]
        exact hne

theorem scrapeBrkGo_fetch_le (disp : String) :
    ∀ (fuel : Nat) (pages : List (Option BrkPage)),
      (scrapeBrkGo disp fuel pages).1 ≤ fuel := by
  intro fuel
  induction fuel with
  | zero => intro pages; simp [scrapeBrkGo]
  | succ n ih =>
    intro pages
    match pages with
    | [] => simp [scrapeBrkGo]
    | none :: rest => simp [scrapeBrkGo]
    | some pg :: rest =>
      simp only [scrapeBrkGo]
      by_cases he : (brkPageRows disp pg).isEmpty = true
      · rw [if_pos he]; omega
      · rw [if_neg he]
        by_cases hn : pg.hasNext = true
        · rw [if_pos hn]
          have := ih rest
          omega
        · rw [if_neg hn]; omega

theorem scrapeP24Go_fetch_le (disp : String) :
    ∀ (fuel : Nat) (pages : List (Option P24Page)) (acc : List Record),
      (scrapeP24Go disp fuel pages acc).1 ≤ fuel := by
  intro fuel
  induction fuel with
  | zero => intro pages acc; simp [scrapeP24Go]
  | succ n ih =>
    intro pages acc
    match pages with
    | [] => simp [scrapeP24Go]
    | none :: rest => simp [scrapeP24Go]
    | some pg :: rest =>
      simp only [scrapeP24Go]
      have := ih rest (acc ++ p24Contribution disp acc.isEmpty pg)
      omega

theorem scrapeBrkGo_stops (disp : String) :
    ∀ (pre : List (Option BrkPage)) (fuel : Nat) (pg : BrkPage)
      (rest : List (Option BrkPage)),
      (∀ q ∈ pre, ∃ p, q = some p ∧ (brkPageRows disp p).isEmpty = false ∧
        p.hasNext = true) →
      pre.length < fuel →
      (brkPageRows disp pg).isEmpty = true →
      (scrapeBrkGo disp fuel (pre ++ some pg :: rest)).1 = pre.length + 1 := by
  intro pre
  induction pre with
  | nil =>
    intro fuel pg rest _ hlen hempty
    match fuel, hlen with
    | n + 1, _ =>
      simp only [List.nil_append, scrapeBrkGo]
      rw [if_pos hempty]
      rfl
  | cons q pre' ih =>
    intro fuel pg rest hpre hlen hempty
    obtain ⟨p, hq, hrows, hnext⟩ := hpre q (List.mem_cons_self _ _)
    subst hq
    match fuel, hlen with
    | n + 1, hlen =>
      simp only [List.cons_append, scrapeBrkGo]
      rw [if_neg (by simp [hrows]), if_pos hnext]
      have hrec := ih n pg rest
        (fun q hq => hpre q (List.mem_cons_of_mem _ hq))
        (by simpa using hlen) hempty
      show (scrapeBrkGo disp n (pre' ++ some pg :: rest)).1 + 1 = _
      rw [hrec]
      simp

theorem length_filterMap_of_all {α β : Type} (f : α → Option β)
    (l : List α) (h : ∀ a ∈ l, (f a).isSome = true) :
    (l.filterMap f).length = l.length := by
  induction l with
  | nil => rfl
  | cons a rest ih =>
    cases hf : f a with
    | none =>
      have := h a (List.mem_cons_self _ _)
      rw [hf] at this
      cases this
    | some b =>
      simp only [List.filterMap_cons, hf, List.length_cons]
      rw [ih fun x hx => h x (List.mem_cons_of_mem _ hx)]

/-! ### Fixtures used by the claim theorems -/

/-- A record with every field empty (its derived dedup key is `""`). -/
def emptyRec : Record := {}

def brkEmptyPage : BrkPage := { blocks := [], hasNext := true }

def p24EmptyPage : P24Page := { tiles := [], p24Elems := [], kshNodes := [] }

/-- The desktop rendering of one BuyRentKenya listing. -/
def brkDeskBlock : H2Block :=
  { h2text := "Lovely 3 Bed Apartment"
    nextH3 := some "Lovely 3 Bed ApartmentKSh 12,000,000"
    ancestors := [⟨"a", "/listings/lovely-3-bed-1"⟩]
    sibs := [BrkSib.navStr " Kilimani, Nairobi ",
             BrkSib.tag "div" "3 Bedrooms 2 Bathrooms 120 m²"] }

/-- The mobile rendering: different markup, identical title and price. -/
def brkMobBlock : H2Block :=
  { h2text := "Lovely 3 Bed Apartment"
    nextH3 := some "Lovely 3 Bed ApartmentKSh 12,000,000"
    ancestors := [⟨"div", ""⟩, ⟨"a", "/listings/lovely-3-bed-1"⟩]
    sibs := [BrkSib.navStr " Kilimani, Nairobi "] }

def brkListingRec : Record :=
  { source := "BuyRentKenya"
    title := "Lovely 3 Bed Apartment"
    price := "KSh 12,000,000"
    location := "Kilimani, Nairobi"
    bedrooms := "3 Bedrooms"
    bathrooms := "2 Bathrooms"
    size_sqm := "120 m²"
    url := "https://www.buyrentkenya.com/listings/lovely-3-bed-1" }

def brkMobRec : Record :=
  { source := "BuyRentKenya"
    title := "Lovely 3 Bed Apartment"
    price := "KSh 12,000,000"
    location := "Kilimani, Nairobi"
    url := "https://www.buyrentkenya.com/listings/lovely-3-bed-1" }

/-- A Jiji script whose adverts array is cut off mid-array with no
complete listing object before the truncation point. -/
def jijiTrunc0 : String := "var x = \x7b\"adverts\": [\x7b\"b\": [2"

/-- Cut off mid-array with exactly one complete listing object
(`\x7b"a": [1]\x7d`) before the truncation point. -/
def jijiTrunc1 : String := "var x = \x7b\"adverts\": [\x7b\"a\": [1]\x7d, \x7b\"b\": 2"

/-- Cut off mid-array with two complete listing objects before the
truncation point. -/
def jijiTrunc2 : String :=
  "\x7b\"adverts\": [\x7b\"a\": [1]\x7d, \x7b\"c\": [3]\x7d, \x7b\"b\": 2"

/-- A complete adverts array that defeats the non-greedy regex capture
(nested array), so only the balanced-bracket scan can recover it. -/
def jijiRecovFull : String :=
  "window.x = \x7b\"adverts\": [\x7b\"a\": [1, 2]\x7d, \x7b\"b\": 3\x7d]\x7d;"

/-- A well-formed adverts payload with one advert that has neither a
title nor a price field. -/
def jijiEmptyAdvertScript : String :=
  "\x7b\"adverts\": [\x7b\x7d], \"total_count\": 1\x7d"

def p24CardFixture : P24Card :=
  { title := some "Nice Flat", price := some "KSh 1,000", location := none,
    spanTexts := [], href := none, fullText := "Nice Flat KSh 1,000" }

/-- Page 1 of the C9 counterexample run: one DOM card, one record. -/
def p24CardPage : P24Page :=
  { tiles := [p24CardFixture], p24Elems := [], kshNodes := [] }

/-- Page 2 of the C9 counterexample run: no element matches either card
selector, one text block matches the KSh pattern. -/
def p24TextOnlyPage : P24Page :=
  { tiles := [], p24Elems := [],
    kshNodes := [{ parentText := some "Great House KSh 2,000",
                   headingText := some "Great House" }] }

def pgFallbackPage : PgPage :=
  { cards := [],
    textMatches := [("3 Bed Apartment in Kilimani", "KSh 12,000,000")] }

/-! ### The claim theorems -/

/-- Claim C1: for every input list of records, every record in the list
returned by the deduplicator has a distinct derived dedup key (the url
when non-empty, else title ++ price): the output is pairwise
key-distinct. -/
theorem c1_dedup_key_unique (l : List Record) :
    (dedup l).Pairwise fun a b => dedupKey a ≠ dedupKey b :=
  dedupGo_pairwise [] l

/-- Claim C2 counterexample: the deduplicator is NOT the pass that keeps
every record whose derived key was not seen before — a record whose
derived key is the empty string is dropped even on its first occurrence,
while the claimed pass (`specKeepFirst`) keeps it. -/
theorem c2_counterexample :
    dedup [emptyRec] = [] ∧ specKeepFirst [] [emptyRec] = [emptyRec] :=
  ⟨rfl, rfl⟩

/-- Claim C2 amended: the deduplicator equals the single left-to-right
pass that keeps exactly those records whose derived key is non-empty and
was not derived from any earlier record, preserving input order. -/
theorem c2_amended_first_nonempty_key_kept (l : List Record) :
    dedup l = specKeepFirstNonEmpty [] l :=
  dedupGo_eq_specNE [] [] l (fun _ h => h) (fun _ _ h => h)

/-- Claim C3 counterexample: a Property24 run whose first page (and every
page) yields zero records still fetches all `MAX_PAGES` pages — the
Property24 pagination loop does not stop on a zero-record page, only on a
navigation error. -/
theorem c3_counterexample :
    p24Contribution "Sale" true p24EmptyPage = [] ∧
    (scrape_p24 "Sale" (List.replicate 10 (some p24EmptyPage))).1 = 10 :=
  ⟨rfl, rfl⟩

/-- Claim C3 amended: every pagination loop fetches at most `MAX_PAGES`
pages; the BuyRentKenya loop additionally stops on the first page that
yields zero records (fetching exactly the pages up to and including it),
while the Property24 loop has no zero-record stop. -/
theorem c3_amended_pagination :
    (∀ disp pages, (scrape_brk disp pages).1 ≤ MAX_PAGES) ∧
    (∀ disp pages, (scrape_p24 disp pages).1 ≤ MAX_PAGES) ∧
    (∀ disp (pre : List (Option BrkPage)) pg rest,
      (∀ q ∈ pre, ∃ p, q = some p ∧ (brkPageRows disp p).isEmpty = false ∧
        p.hasNext = true) →
      pre.length < MAX_PAGES →
      (brkPageRows disp pg).isEmpty = true →
      (scrape_brk disp (pre ++ some pg :: rest)).1 = pre.length + 1) := by
  refine ⟨?_, ?_, ?_⟩
  · intro disp pages
    exact scrapeBrkGo_fetch_le disp MAX_PAGES pages
  · intro disp pages
    exact scrapeP24Go_fetch_le disp MAX_PAGES pages []
  · intro disp pre pg rest hpre hlen hempty
    exact scrapeBrkGo_stops disp pre MAX_PAGES pg rest hpre hlen hempty

/-- Witness for C3: a BuyRentKenya run whose first page yields zero
records fetches exactly one page. -/
theorem c3_witness : (scrape_brk "Sale" [some brkEmptyPage]).1 = 1 :=
  c3_amended_pagination.2.2 "Sale" [] brkEmptyPage []
    (fun q hq => absurd hq (List.not_mem_nil q)) (by decide) rfl

/-- Claim C4 counterexample: a page whose adverts array is cut off
mid-array with exactly one complete listing object before the truncation
point yields 0 records, not 1 — the balanced-bracket scan needs the
bracket depth to return to zero, which a truncated array never does.  The
second conjunct certifies that the object preceding the truncation point
in `jijiTrunc1` is complete (closing it alone gives a one-element
array). -/
theorem c4_counterexample :
    parse_jiji_adverts [jijiTrunc1] = .ok (Json.arr []) ∧
    json_loads "[\x7b\"a\": [1]\x7d]" =
      .ok (Json.arr [Json.obj [("a", Json.arr [Json.num 1])]]) :=
  ⟨rfl, rfl⟩

/-- Claim C4 amended: on a page whose adverts array is cut off mid-array
the recovery yields 0 records regardless of how many complete listing
objects precede the truncation point (fixtures with 0, 1 and 2 complete
objects); the balanced-bracket scan recovers listings only when the
complete balanced array is present and merely the non-greedy regex
capture was too short. -/
theorem c4_amended_truncation_yields_nothing :
    parse_jiji_adverts [jijiTrunc0] = .ok (Json.arr []) ∧
    parse_jiji_adverts [jijiTrunc1] = .ok (Json.arr []) ∧
    parse_jiji_adverts [jijiTrunc2] = .ok (Json.arr []) ∧
    parse_jiji_adverts [jijiRecovFull] =
      .ok (Json.arr
        [Json.obj [("a", Json.arr [Json.num 1, Json.num 2])],
         Json.obj [("b", Json.num 3)]]) :=
  ⟨rfl, rfl, rfl, rfl⟩

/-- Claim C5: the text normalizer is idempotent — applying `c` twice to
any string yields the same result as applying it once. -/
theorem c5_normalizer_idempotent (s : String) : c (c s) = c s := c_of_c s

/-- Claim C6 counterexample: the Jiji extractor emits a record with both
title and price empty when an advert carries neither field — its
per-advert loop has no noise filter. -/
theorem c6_counterexample :
    scrapeJijiPage "Sale" [jijiEmptyAdvertScript] =
      .ok [{ source := "Jiji", listing_type := "Sale" }] ∧
    ({ source := "Jiji", listing_type := "Sale" } : Record).title = "" ∧
    ({ source := "Jiji", listing_type := "Sale" } : Record).price = "" :=
  ⟨rfl, rfl, rfl⟩

/-- Claim C6 amended: the BuyRentKenya, Property24 and PigiaMe extractors
never emit a record with both title and price empty (their guards and the
KSh price matches force one of the two non-empty); the Jiji extractor has
no such filter (see the counterexample). -/
theorem c6_amended_no_both_empty :
    (∀ base blocks, ((parse_brk base blocks).all fun r =>
      !(r.title == "" && r.price == "")) = true) ∧
    (∀ disp b pg, ((p24Contribution disp b pg).all fun r =>
      !(r.title == "" && r.price == "")) = true) ∧
    (∀ disp pg, ((pigiamePageRecords disp pg).all fun r =>
      !(r.title == "" && r.price == "")) = true) := by
  refine ⟨?_, ?_, ?_⟩
  · intro base blocks
    rw [List.all_eq_true]
    intro r hr
    have hin := brkDedupGo_subset [] _ r hr
    obtain ⟨b, _, hb⟩ := List.mem_filterMap.mp hin
    have hp := brkRecordOf_price_ne base b r hb
    have : (r.price == "") = false := by simpa using hp
    simp [this]
  · intro disp bb pg
    rw [List.all_eq_true]
    intro r hr
    unfold p24Contribution at hr
    rcases List.mem_append.mp hr with hr | hr
    · obtain ⟨hin, hpred⟩ := List.mem_filter.mp hr
      simp only [Bool.or_eq_true, decide_eq_true_eq] at hpred
      rcases hpred with h | h
      · have : (r.title == "") = false := by simpa using h
        simp [this]
      · have : (r.price == "") = false := by simpa using h
        simp [this]
    · by_cases hc : (bb && (p24CardRecords disp pg).isEmpty) = true
      · rw [if_pos hc] at hr
        obtain ⟨n, _, hn⟩ := List.mem_filterMap.mp hr
        cases hpt : n.parentText with
        | none => rw [hpt] at hn; cases hn
        | some pt =>
          rw [hpt] at hn
          have hn' : (match kshMatch pt.data with
              | none => none
              | some pm => some (row "Property24" disp (n.headingText.getD "")
                  (String.mk pm) "Nairobi" "" "" "" "" "")) = some r := hn
          cases hkm : kshMatch pt.data with
          | none => rw [hkm] at hn'; cases hn'
          | some pm =>
            rw [hkm] at hn'
            obtain ⟨run, hrun⟩ := kshMatch_shape _ _ hkm
            have hpr : r.price = c (String.mk pm) := by
              injection hn' with h'
              rw [← h']
              rfl
            have hK : 'K' ∈ (String.mk pm).data := by
              rw [hrun]; exact List.mem_cons_self _ _
            have hne : c (String.mk pm) ≠ "" :=
              c_ne_empty_of_mem hK (by decide)
            rw [← hpr] at hne
            have : (r.price == "") = false := by simpa using hne
            simp [this]
      · rw [if_neg hc] at hr
        cases hr
  · intro disp pg
    rw [List.all_eq_true]
    intro r hr
    unfold pigiamePageRecords at hr
    by_cases hc : pg.cards.isEmpty = true
    · rw [if_pos hc] at hr
      obtain ⟨m, _, hm⟩ := List.mem_filterMap.mp hr
      by_cases hcond : (c m.1 ≠ "" ∧ c m.2 ≠ "" ∧ 5 < (c m.1).length)
      · rw [if_pos hcond] at hm
        have htl : r.title = c (c m.1) := by
          injection hm with h'
          rw [← h']
          rfl
        have hne : r.title ≠ "" := by
          rw [htl, c_of_c]
          exact hcond.1
        have : (r.title == "") = false := by simpa using hne
        simp [this]
      · rw [if_neg hcond] at hm
        cases hm
    · rw [if_neg hc] at hr
      obtain ⟨hin, hpred⟩ := List.mem_filter.mp hr
      simp only [decide_eq_true_eq] at hpred
      have : (r.title == "") = false := by simpa using hpred
      simp [this]

/-- Claim C7: the Jiji structured-data extractor never surfaces an
exception — on any input page the direct parse either succeeds, or its
decode error triggers the balanced-bracket recovery, and when that fails
too the extractor moves on and finally returns the empty list (`ok`). -/
theorem c7_jiji_never_raises (scripts : List String) :
    exceptOk (parse_jiji_adverts scripts) = true := by
  induction scripts with
  | nil => rfl
  | cons text rest ih =>
    simp only [parse_jiji_adverts]
    by_cases hc : containsSub text.data advertsKey = false
    · rw [if_pos hc]; exact ih
    · rw [if_neg hc]
      split
      · exact ih
      · split
        · rfl
        · split
          · next e heq =>
            exfalso
            have hsome : (findSub text.data advertsKey).isSome = true := by
              simp only [containsSub, Bool.not_eq_false] at hc
              exact hc
            obtain ⟨i, hi⟩ := Option.isSome_iff_exists.mp hsome
            unfold strIndexE at heq
            rw [hi] at heq
            cases heq
          · split
            · exact ih
            · split
              · rfl
              · exact ih

/-- Claim C8: two markup renderings (desktop and mobile) of one listing
with identical normalized title and price yield exactly one record from
the BuyRentKenya extractor — it dedups within the page by title ++ price
before returning, independently of the final cross-source dedup. -/
theorem c8_brk_intra_dedup (base : String) (b1 b2 : H2Block)
    (r1 r2 : Record)
    (h1 : brkRecordOf base b1 = some r1)
    (h2 : brkRecordOf base b2 = some r2)
    (ht : r1.title = r2.title) (hp : r1.price = r2.price) :
    (parse_brk base [b1, b2]).length = 1 := by
  unfold parse_brk
  have hfm : List.filterMap (brkRecordOf base) [b1, b2] = [r1, r2] := by
    simp [List.filterMap_cons, h1, h2]
  rw [hfm]
  simp only [brkDedupGo]
  rw [if_neg (List.not_mem_nil _)]
  have hkey : r2.title ++ r2.price ∈ [r1.title ++ r1.price] := by
    rw [ht, hp]
    exact List.mem_singleton.mpr rfl
  rw [if_pos hkey]
  rfl

set_option maxRecDepth 4000

/-- Witness for C8 at a concrete desktop + mobile pair. -/
theorem c8_witness : (parse_brk brkBase [brkDeskBlock, brkMobBlock]).length = 1 :=
  c8_brk_intra_dedup brkBase brkDeskBlock brkMobBlock brkListingRec brkMobRec
    rfl rfl rfl rfl

/-- Claim C9 counterexample: the second page of this Property24 run
matches no card selector and contains one KSh text block, yet the run's
output holds only the first page's record — the text-pattern fallback is
skipped because `results` (accumulated across pages) is non-empty, so the
page yields 0 records instead of the claimed 1. -/
theorem c9_counterexample :
    p24PageCards p24TextOnlyPage = [] ∧
    p24TextOnlyPage.kshNodes.length = 1 ∧
    p24Contribution "Sale" false p24TextOnlyPage = [] ∧
    (scrape_p24 "Sale" [some p24CardPage, some p24TextOnlyPage]).2.length = 1 :=
  ⟨rfl, rfl, rfl, rfl⟩

/-- Claim C9 amended: when a page matches no configured DOM card selector
and N text blocks match the title-plus-nearby-KSh pattern, the
text-pattern strategy yields exactly N records — provided, for
Property24, that no records were accumulated earlier for this source/type
(otherwise the fallback is skipped), and, for PigiaMe, that each matched
block passes the per-block filter (non-empty normalized title and price,
title longer than 5). -/
theorem c9_amended_text_fallback :
    (∀ disp pg, p24PageCards pg = [] →
      (∀ n ∈ pg.kshNodes, ∃ pt, n.parentText = some pt ∧
        (kshMatch pt.data).isSome = true) →
      (p24Contribution disp true pg).length = pg.kshNodes.length) ∧
    (∀ disp pg, pg.cards = [] →
      (∀ m ∈ pg.textMatches, c m.1 ≠ "" ∧ c m.2 ≠ "" ∧
        5 < (c m.1).length) →
      (pigiamePageRecords disp pg).length = pg.textMatches.length) := by
  constructor
  · intro disp pg hcards hnodes
    have hcr : p24CardRecords disp pg = [] := by
      unfold p24CardRecords
      rw [hcards]
      rfl
    unfold p24Contribution
    rw [hcr]
    simp only [List.isEmpty_nil, Bool.and_true, List.nil_append]
    rw [if_pos trivial]
    unfold p24TextRecords
    refine length_filterMap_of_all _ _ ?_
    intro n hn
    obtain ⟨pt, hpt, hks⟩ := hnodes n hn
    obtain ⟨pm, hpm⟩ := Option.isSome_iff_exists.mp hks
    rw [hpt]
    have : (match kshMatch pt.data with
        | none => none
        | some pm => some (row "Property24" disp (n.headingText.getD "")
            (String.mk pm) "Nairobi" "" "" "" "" "")).isSome = true := by
      rw [hpm]
      rfl
    exact this
  · intro disp pg hcards hblocks
    have hce : pg.cards.isEmpty = true := by rw [hcards]; rfl
    unfold pigiamePageRecords
    rw [if_pos hce]
    unfold pgTextRecords
    refine length_filterMap_of_all _ _ ?_
    intro m hm
    rw [if_pos (hblocks m hm)]
    rfl

/-- Witness for C9: both text-pattern paths yield exactly one record on a
one-block fixture page. -/
theorem c9_witness :
    (p24Contribution "Sale" true p24TextOnlyPage).length = 1 ∧
    (pigiamePageRecords "Sale" pgFallbackPage).length = 1 := by
  constructor
  · exact c9_amended_text_fallback.1 "Sale" p24TextOnlyPage rfl
      (by
        intro n hn
        simp only [p24TextOnlyPage, List.mem_singleton] at hn
        subst hn
        exact ⟨"Great House KSh 2,000", rfl, rfl⟩)
  · exact c9_amended_text_fallback.2 "Sale" pgFallbackPage rfl
      (by
        intro m hm
        simp only [pgFallbackPage, List.mem_singleton] at hm
        subst hm
        refine ⟨by decide, by decide, by decide⟩)

/-- Claim C10: a record whose derived dedup key is empty (url, title and
price all empty) is dropped by the deduplicator even on first occurrence,
so no record of the output has url, title and price all empty. -/
theorem c10_dedup_drops_all_empty (l : List Record) :
    ((dedup l).all fun r =>
      !(r.url == "" && r.title == "" && r.price == "")) = true := by
  rw [List.all_eq_true]
  intro r hr
  have hk : dedupKey r ≠ "" := dedupGo_key_ne [] l r hr
  cases hb : (r.url == "" && r.title == "" && r.price == "") with
  | false => rfl
  | true =>
    exfalso
    simp only [Bool.and_eq_true, beq_iff_eq] at hb
    obtain ⟨⟨hu, ht2⟩, hp2⟩ := hb
    apply hk
    unfold dedupKey
    rw [if_neg (by simp [hu]), ht2, hp2]
    rfl

end Scraper
